import Mathlib

/-!
Verification of the run orchestration and walk-forward optimization engine.

The definitions below are shallow embeddings of the Python sources:
  worker_main.py            (worker polling loop, progress updates, error handling)
  manager_main.py           (autoscaling process supervisor)
  src/db/backtests_repo.py  (run store and skip-locked claim protocol)
  src/main_backtest.py      (month arithmetic, walk-forward windows, grid parsing)

Machine integers are modeled as Int/Nat, Python strings as lists of
characters, fallible operations as Option, and the concurrent claim
protocol as an explicit step relation on an orchestration state.
-/

namespace AgentTest

/-! Date model for main_backtest.py.  Python datetimes are compared
lexicographically by (year, month, day, time-of-day); the time-of-day
below collapses hour/minute/second/microsecond into one number, which
is faithful for ordering purposes. -/

structure PyDateTime where
  year : Int
  month : Int
  day : Nat
  tod : Nat
deriving DecidableEq

/-- month index used to reason about month arithmetic -/
def monthIndex (d : PyDateTime) : Int :=
  d.year * 12 + (d.month - 1)

/-- a structurally valid datetime has its month in 1..12 -/
def validMonth (d : PyDateTime) : Prop :=
  1 ≤ d.month ∧ d.month ≤ 12

/-- month_delta from src/main_backtest.py lines 697-702: naive month
advance; Python floor division and modulo by the positive constant 12
are Int.ediv and Int.emod; the day is clamped to at most 28. -/
def month_delta (dt : PyDateTime) (months : Int) : PyDateTime :=
  { year := dt.year + Int.ediv (dt.month - 1 + months) 12
    month := Int.emod (dt.month - 1 + months) 12 + 1
    day := min dt.day 28
    tod := dt.tod }

/-- strict comparison of datetimes, lexicographic as in Python -/
def dtLt (a b : PyDateTime) : Bool :=
  if a.year ≠ b.year then decide (a.year < b.year)
  else if a.month ≠ b.month then decide (a.month < b.month)
  else if a.day ≠ b.day then decide (a.day < b.day)
  else decide (a.tod < b.tod)

/-- non-strict comparison of datetimes -/
def dtLe (a b : PyDateTime) : Bool :=
  !(dtLt b a)

/-- Python min of two datetimes: the second argument is returned only
when it is strictly smaller -/
def pyMinDT (a b : PyDateTime) : PyDateTime :=
  if dtLt b a then b else a

/-- one train/test window of the walk-forward loop in run_wfo -/
structure WfoWindow where
  train_start : PyDateTime
  train_end : PyDateTime
  test_start : PyDateTime
  test_end : PyDateTime
deriving DecidableEq

/-- the window-generation loop of run_wfo (src/main_backtest.py lines
740-759), embedded with explicit fuel because the Python while-loop has
no syntactic termination measure.  The keep predicate abstracts the
data-dependent test that the train slice is nonempty, the test slice is
nonempty and a best candidate was found; when it is false the loop
advances without
recording a fold, exactly as the continue branches do. -/
def wfoWindowsAux (trainM testM stepM : Int) (endTs : PyDateTime)
    (keep : WfoWindow → Bool) : Nat → PyDateTime → List WfoWindow
  | 0, _ => []
  | fuel + 1, trainStart =>
    let trainEnd := month_delta trainStart trainM
    let testEndRaw := month_delta trainEnd testM
    if dtLe endTs trainEnd || dtLe endTs trainStart then []
    else
      let testStart := trainEnd
      if dtLe endTs testStart then []
      else
        let testEnd := pyMinDT testEndRaw endTs
        let w : WfoWindow :=
          { train_start := trainStart, train_end := trainEnd
            test_start := testStart, test_end := testEnd }
        let rest := wfoWindowsAux trainM testM stepM endTs keep fuel
          (month_delta trainStart stepM)
        if keep w then w :: rest else rest

/-- the full window generation of run_wfo, starting at the earliest
timestamp of the series; the fuel bound exceeds the number of
iterations the Python loop performs whenever the step is positive -/
def run_wfo_windows (trainM testM stepM : Int)
    (startTs endTs : PyDateTime) (keep : WfoWindow → Bool) : List WfoWindow :=
  wfoWindowsAux trainM testM stepM endTs keep
    ((monthIndex endTs - monthIndex startTs).toNat + 2) startTs

/-! Grid and constraint evaluator (src/main_backtest.py lines 495-532).
Python strings are modeled as lists of characters so that splitting,
stripping and digit tests are directly executable. -/

/-- a Python string as a list of characters -/
abbrev PyStr := List Char

/-- Python str.split on a single-character separator; note that the
empty string splits into one empty piece, as in Python -/
def splitOnChar (sep : Char) : PyStr → List PyStr
  | [] => [[]]
  | c :: rest =>
    let r := splitOnChar sep rest
    if c = sep then [] :: r
    else
      match r with
      | [] => [[c]]
      | h :: t => (c :: h) :: t

/-- Python str.strip: remove whitespace from both ends -/
def pyStrip (s : PyStr) : PyStr :=
  ((s.dropWhile Char.isWhitespace).reverse.dropWhile Char.isWhitespace).reverse

/-- Python str.isdigit: nonempty and all digits -/
def pyIsDigitStr (s : PyStr) : Bool :=
  !s.isEmpty && s.all Char.isDigit

/-- Python str.lstrip with argument, here only used to strip minus signs -/
def lstripDashes (s : PyStr) : PyStr :=
  s.dropWhile (fun c => c = '-')

/-- decimal value of a digit string -/
def digitsToNat (s : PyStr) : Nat :=
  s.foldl (fun a c => a * 10 + (c.toNat - 48)) 0

/-- Python int(str): optional sign followed by digits, with surrounding
whitespace allowed; none models a raised ValueError -/
def pyIntOfStr (s : PyStr) : Option Int :=
  match pyStrip s with
  | [] => none
  | '-' :: rest => if pyIsDigitStr rest then some (-(digitsToNat rest : Int)) else none
  | '+' :: rest => if pyIsDigitStr rest then some ((digitsToNat rest : Int)) else none
  | t => if pyIsDigitStr t then some ((digitsToNat t : Int)) else none

/-- length of a Python range(start, stop, step), using floor division -/
def pyRangeLen (start stop step : Int) : Nat :=
  if 0 < step then (Int.fdiv (stop - start + step - 1) step).toNat
  else if step < 0 then (Int.fdiv (stop - start + step + 1) step).toNat
  else 0

/-- Python list(range(start, stop, step)) -/
def pyRange (start stop step : Int) : List Int :=
  (List.range (pyRangeLen start stop step)).map (fun i => start + step * i)

/-- insertion into a Python dict modeled as an association list:
an existing key is overwritten in place, a new key is appended -/
def assocSet (g : List (PyStr × List Int)) (k : PyStr) (v : List Int) :
    List (PyStr × List Int) :=
  match g with
  | [] => [(k, v)]
  | (k', v') :: rest => if k' = k then (k, v) :: rest else (k', v') :: assocSet rest k v

/-- Python item.split(sep, 1): the part before the first separator and
the remainder rejoined -/
def joinWithChar (c : Char) : List PyStr → PyStr
  | [] => []
  | [x] => x
  | x :: xs => x ++ c :: joinWithChar c xs

/-- split at the first occurrence of a character, keeping the rest intact -/
def splitFirst (sep : Char) (s : PyStr) : PyStr × PyStr :=
  match splitOnChar sep s with
  | [] => (s, [])
  | h :: t => (h, joinWithChar sep t)

/-- one iteration of the item loop of _parse_grid; none models an
uncaught ValueError from int() inside the three-part branch -/
def parse_grid_item (acc : List (PyStr × List Int)) (item0 : PyStr) :
    Option (List (PyStr × List Int)) :=
  let item := pyStrip item0
  if item.isEmpty then some acc
  else if !(item.contains '=') then some acc
  else
    let nr := splitFirst '=' item
    let name := pyStrip nr.1
    let parts := (splitOnChar ':' nr.2).map pyStrip
    if parts.length = 3 && parts.all (fun p => pyIsDigitStr (lstripDashes p)) then
      match parts with
      | [p1, p2, p3] =>
        match pyIntOfStr p1, pyIntOfStr p2, pyIntOfStr p3 with
        | some start, some stop, some step =>
          if step = 0 then some acc
          else
            some (assocSet acc name
              (pyRange start (stop + (if 0 ≤ (stop - start) * step then 1 else -1)) step))
        | _, _, _ => none
      | _ => some acc
    else
      match pyIntOfStr nr.2 with
      | some v => some (assocSet acc name [v])
      | none => some acc

/-- _parse_grid from src/main_backtest.py lines 495-522: parse a grid
string such as fast=5:30:1,slow=10:60:5 into a dict of per-parameter
integer value lists -/
def parse_grid (grid : PyStr) : Option (List (PyStr × List Int)) :=
  if grid.isEmpty then some []
  else (splitOnChar ',' grid).foldlM parse_grid_item []

/-- the Cartesian product of per-parameter value lists in dict order,
as enumerated by cerebro.optstrategy over the parsed grid -/
def grid_product : List (PyStr × List Int) → List (List (PyStr × Int))
  | [] => [[]]
  | (name, vals) :: rest =>
    vals.flatMap (fun v => (grid_product rest).map (fun tl => (name, v) :: tl))

/-- variable lookup in a parameter tuple -/
def lookupParam (ps : List (PyStr × Int)) (k : PyStr) : Option Int :=
  match ps with
  | [] => none
  | (k', v) :: rest => if k' = k then some v else lookupParam rest k

/-- evaluation of a constraint expression of the shape name<name over a
parameter tuple, modeling Python eval on that expression class; none
models a raised exception such as an unknown name or a malformed
expression -/
def evalVarLtExpr (expr : PyStr) (ps : List (PyStr × Int)) : Option Bool :=
  match splitOnChar '<' expr with
  | [a, b] =>
    match lookupParam ps (pyStrip a), lookupParam ps (pyStrip b) with
    | some x, some y => some (decide (x < y))
    | _, _ => none
  | _ => none

/-- _constraint_ok from src/main_backtest.py lines 525-532: an empty
expression passes, and an evaluation failure counts as satisfied -/
def constraint_ok (evalExpr : PyStr → List (PyStr × Int) → Option Bool)
    (ps : List (PyStr × Int)) (expr : PyStr) : Bool :=
  if expr.isEmpty then true
  else
    match evalExpr expr ps with
    | some b => b
    | none => true

/-- the candidate tuples the optimizer actually evaluates: the full
Cartesian product filtered by the constraint -/
def grid_candidates (evalExpr : PyStr → List (PyStr × Int) → Option Bool)
    (grid : List (PyStr × List Int)) (expr : PyStr) : List (List (PyStr × Int)) :=
  (grid_product grid).filter (fun ps => constraint_ok evalExpr ps expr)

/-! Run store and claim protocol (src/db/backtests_repo.py) together
with the worker polling loop (worker_main.py).  The run_headers table
is a list of rows; a row lock held by a concurrent transaction is the
lockedBy field.  The SKIP LOCKED selection reads the queued rows of
the supported run types in started_at order and takes the first row
not locked by another caller. -/

/-- run_type values; other stands for any unsupported type -/
inductive RunType where
  | backtest
  | optimize
  | wfo
  | other
deriving DecidableEq

/-- status values of a run -/
inductive RunStatus where
  | queued
  | running
  | succeeded
  | failed
deriving DecidableEq

/-- the run types fetch_next_queued selects -/
def supported_run_type : RunType → Bool
  | .other => false
  | _ => true

/-- one row of run_headers as the claim protocol sees it -/
structure RunRow where
  id : Nat
  run_type : RunType
  status : RunStatus
  progress : Int
  started_at : Int
  error : Option String
  lockedBy : Option Nat
deriving DecidableEq

/-- the WHERE clause of fetch_next_queued: queued status and a
supported run type -/
def eligibleQueued (r : RunRow) : Bool :=
  supported_run_type r.run_type && decide (r.status = RunStatus.queued)

/-- stable insertion into a list ordered by started_at ascending -/
def insertByStarted (r : RunRow) : List RunRow → List RunRow
  | [] => [r]
  | x :: xs =>
    if r.started_at < x.started_at then r :: x :: xs
    else x :: insertByStarted r xs

/-- ORDER BY started_at ASC as a stable sort -/
def orderByStarted (rows : List RunRow) : List RunRow :=
  rows.foldr insertByStarted []

/-- fetch_next_queued from src/db/backtests_repo.py lines 68-80:
among queued rows of supported run types ordered by started_at, skip
the rows locked by another caller and return the first remaining row,
or none -/
def fetch_next_queued (rows : List RunRow) : Option RunRow :=
  ((orderByStarted (rows.filter eligibleQueued)).filter
    (fun r => r.lockedBy.isNone)).head?

/-! Orchestration state machine: any number of worker loop instances
polling the shared store.  A worker is idle, or holds the row lock
acquired by the claim transaction, or is processing a claimed run.
Claims are recorded when the claim transaction commits: the same unit
of work sets the row to running with progress 1 and releases the lock
(worker_main.py lines 523-528). -/

/-- phase of one worker loop instance -/
inductive WorkerPhase where
  | idle
  | holding (rid : Nat)
  | processing (rid : Nat)
deriving DecidableEq

/-- one persisted run_results row -/
structure ResultRow where
  run_id : Nat
  label : String
deriving DecidableEq

/-- global state: the run store, the worker phases, the history of
committed claims as (worker, run) pairs, and the persisted results -/
structure OrchState where
  rows : List RunRow
  workers : Nat → WorkerPhase
  claims : List (Nat × Nat)
  results : List ResultRow

/-- single-row update of the store -/
def updateRow (rid : Nat) (f : RunRow → RunRow) (rows : List RunRow) : List RunRow :=
  rows.map (fun r => if r.id = rid then f r else r)

/-- pointwise update of the worker phases -/
def setWorker (ws : Nat → WorkerPhase) (w : Nat) (ph : WorkerPhase) :
    Nat → WorkerPhase :=
  fun x => if x = w then ph else ws x

/-- effect of the SELECT FOR UPDATE SKIP LOCKED: the chosen row is
locked by the caller until the claim transaction commits -/
def applySelect (s : OrchState) (w rid : Nat) : OrchState :=
  { s with
    rows := updateRow rid (fun r => { r with lockedBy := some w }) s.rows
    workers := setWorker s.workers w (.holding rid) }

/-- effect of committing the claim transaction: in the same unit of
work the row becomes running with progress 1 and the lock is released
(worker_main.py lines 526-528) -/
def applyClaimCommit (s : OrchState) (w rid : Nat) : OrchState :=
  { s with
    rows := updateRow rid
      (fun r => { r with status := .running, progress := 1, lockedBy := none }) s.rows
    workers := setWorker s.workers w (.processing rid)
    claims := (w, rid) :: s.claims }

/-- effect of an intermediate update_status(running, progress) issued
by a handler while processing -/
def applyProgress (s : OrchState) (rid : Nat) (p : Int) : OrchState :=
  { s with
    rows := updateRow rid
      (fun r => { r with status := .running, progress := p }) s.rows }

/-- effect of normal completion: update_status(succeeded, 100) followed
by persisting the produced result rows (worker_main.py lines 556-572,
287-294) -/
def applyFinishOk (s : OrchState) (w rid : Nat) (rs : List ResultRow) : OrchState :=
  { s with
    rows := updateRow rid
      (fun r => { r with status := .succeeded, progress := 100 }) s.rows
    workers := setWorker s.workers w .idle
    results := s.results ++ rs }

/-- effect of the except branch of worker_loop (worker_main.py lines
573-576): update_status(failed, progress=100, error=str(exc)) and the
loop continues -/
def applyFinishFail (s : OrchState) (w rid : Nat) (msg : String) : OrchState :=
  { s with
    rows := updateRow rid
      (fun r => { r with status := .failed, progress := 100, error := some msg }) s.rows
    workers := setWorker s.workers w .idle }

/-- interleaving semantics of the concurrent worker loops -/
inductive OrchStep : OrchState → OrchState → Prop
  | select {s : OrchState} {w : Nat} {r : RunRow} :
      s.workers w = .idle →
      fetch_next_queued s.rows = some r →
      OrchStep s (applySelect s w r.id)
  | claimCommit {s : OrchState} {w rid : Nat} :
      s.workers w = .holding rid →
      OrchStep s (applyClaimCommit s w rid)
  | report {s : OrchState} {w rid : Nat} {p : Int} :
      s.workers w = .processing rid →
      OrchStep s (applyProgress s rid p)
  | finishOk {s : OrchState} {w rid : Nat} {rs : List ResultRow} :
      s.workers w = .processing rid →
      (∀ x ∈ rs, x.run_id = rid) →
      OrchStep s (applyFinishOk s w rid rs)
  | finishFail {s : OrchState} {w rid : Nat} {msg : String} :
      s.workers w = .processing rid →
      OrchStep s (applyFinishFail s w rid msg)

/-- initial states: all workers idle, no claims recorded, distinct row
ids and no row locks held -/
def OrchInit (s : OrchState) : Prop :=
  (∀ w, s.workers w = .idle) ∧ s.claims = [] ∧
  (s.rows.map (fun r => r.id)).Nodup ∧
  (∀ r ∈ s.rows, r.lockedBy = none)

/-- reachability under the interleaving semantics -/
def OrchReachable (s0 s : OrchState) : Prop :=
  Relation.ReflTransGen OrchStep s0 s

/-- how many times a run id occurs among the committed claims -/
def claimCount (s : OrchState) (rid : Nat) : Nat :=
  (s.claims.map Prod.snd).count rid

/-- inductive invariant of the claim protocol -/
def OrchInv (s : OrchState) : Prop :=
  (s.rows.map (fun r => r.id)).Nodup ∧
  (∀ rid, claimCount s rid ≤ 1) ∧
  (∀ r ∈ s.rows, r.status = .queued → claimCount s r.id = 0) ∧
  (∀ w rid, s.workers w = .holding rid →
    ∃ r, r ∈ s.rows ∧ r.id = rid ∧ r.lockedBy = some w ∧ r.status = .queued) ∧
  (∀ r ∈ s.rows, ∀ w, r.lockedBy = some w → s.workers w = .holding r.id) ∧
  (∀ w rid, s.workers w = .processing rid →
    ∀ r ∈ s.rows, r.id = rid → r.status ≠ .queued ∧ r.lockedBy = none)

/-! Persisted progress sequences (worker_main.py process_backtest and
worker_loop).  The handler issues a fixed script of update_status
calls; several of them are wrapped in try/except blocks that swallow a
store-level failure, which is modeled by skip flags.  The call into
run_backtest either returns an exit code or raises. -/

/-- result of the run_backtest call made by process_backtest -/
inductive BtOutcome where
  | ret (rc : Int)
  | raised (msg : String)

/-- the sequence of (status, progress) pairs persisted for one claimed
backtest run: progress 1 in the claim transaction, then process_backtest
marks 5 (a failure there propagates), 20 (failures swallowed), runs the
handler, marks 90 (failures swallowed), raises on a nonzero exit code,
and finally the run is marked succeeded or failed with progress 100 -/
def process_backtest_updates (fail5 skip20 skip90 : Bool) (oc : BtOutcome) :
    List (RunStatus × Int) :=
  (RunStatus.running, 1) ::
    (if fail5 then [(.failed, 100)]
     else (.running, 5) ::
       ((if skip20 then [] else [(.running, 20)]) ++
        (match oc with
         | .raised _ => [(.failed, 100)]
         | .ret rc =>
           (if skip90 then [] else [(.running, 90)]) ++
           (if rc = 0 then [(.succeeded, 100)] else [(.failed, 100)]))))

/-- the progress callback filter of worker_main.py lines 220-231: a
percentage is persisted only when it strictly exceeds the last value
reported through the callback -/
def on_progress_emitted (last : Int) : List Int → List Int
  | [] => []
  | p :: ps =>
    if p ≤ last then on_progress_emitted last ps
    else p :: on_progress_emitted p ps

/-! Autoscaler (manager_main.py).  The desired process count and the
scale-down policy; Python math.ceil over exact division is the natural
number ceiling of the rational quotient. -/

/-- clamp of a value between a lower and an upper bound -/
def clampNat (x lo hi : Nat) : Nat :=
  min (max x lo) hi

/-- the desired worker process count of manager_main.py lines 66-67:
desired equals max(minProcs, ceil(queued / max(1, capacity))) capped at
maxProcs -/
def desired_procs (queued cap minProcs maxProcs : Nat) : Nat :=
  min (max minProcs (Nat.ceil ((queued : ℚ) / ((max 1 cap : Nat) : ℚ)))) maxProcs

/-- the scale-down loop of manager_main.py lines 74-79: pop the last
element of the spawned-worker list and terminate it, n times; the
second component lists the terminated workers in termination order -/
def kill_from_end {α : Type} : Nat → List α → List α × List α
  | 0, ws => (ws, [])
  | n + 1, ws =>
    match ws.getLast? with
    | none => (ws, [])
    | some w =>
      let r := kill_from_end n ws.dropLast
      (r.1, w :: r.2)

/-- scale down to the desired count: the loop runs current - desired
times -/
def scale_down {α : Type} (ws : List α) (desired : Nat) : List α × List α :=
  kill_from_end (ws.length - desired) ws

/-! Small concrete states used to exercise the definitions. -/

/-- a single queued backtest row -/
def demoRow : RunRow :=
  { id := 1, run_type := .backtest, status := .queued, progress := 0,
    started_at := 0, error := none, lockedBy := none }

/-- a queued row locked by a concurrent caller -/
def demoLockedRow : RunRow :=
  { id := 2, run_type := .backtest, status := .queued, progress := 0,
    started_at := 0, error := none, lockedBy := some 7 }

/-- an initial orchestration state with one queued run -/
def demoInit : OrchState :=
  { rows := [demoRow], workers := fun _ => .idle, claims := [], results := [] }

/-- after worker 0 selected the queued row -/
def demoAfterSelect : OrchState :=
  applySelect demoInit 0 1

/-- after worker 0 committed the claim transaction -/
def demoAfterClaim : OrchState :=
  applyClaimCommit demoAfterSelect 0 1

/-! Theorems.  First the month arithmetic underlying the walk-forward
windows. -/

theorem ediv_emod_12 (x : Int) :
    12 * x.ediv 12 + x.emod 12 = x ∧ 0 ≤ x.emod 12 ∧ x.emod 12 < 12 :=
  ⟨Int.ediv_add_emod x 12,
   Int.emod_nonneg x (by norm_num),
   Int.emod_lt_of_pos x (by norm_num)⟩

theorem monthIndex_month_delta (d : PyDateTime) (m : Int) :
    monthIndex (month_delta d m) = monthIndex d + m := by
  have h := ediv_emod_12 (d.month - 1 + m)
  simp only [monthIndex, month_delta]
  omega

theorem validMonth_month_delta (d : PyDateTime) (m : Int) :
    validMonth (month_delta d m) := by
  have h := ediv_emod_12 (d.month - 1 + m)
  simp only [validMonth, month_delta]
  omega

theorem month_delta_day (d : PyDateTime) (m : Int) :
    (month_delta d m).day = min d.day 28 := rfl

theorem month_delta_tod (d : PyDateTime) (m : Int) :
    (month_delta d m).tod = d.tod := rfl

theorem month_delta_add (d : PyDateTime) (a b : Int) :
    month_delta (month_delta d a) b = month_delta d (a + b) := by
  have h1 := ediv_emod_12 (d.month - 1 + a)
  have h2 := ediv_emod_12 ((d.month - 1 + a).emod 12 + 1 - 1 + b)
  have h3 := ediv_emod_12 (d.month - 1 + (a + b))
  simp only [month_delta, PyDateTime.mk.injEq]
  refine ⟨by omega, by omega, by omega, trivial⟩

theorem dtLt_irrefl (a : PyDateTime) : dtLt a a = false := by
  simp [dtLt]

theorem dtLt_char (a b : PyDateTime) (ha : validMonth a) (hb : validMonth b) :
    dtLt a b = true ↔
      (monthIndex a < monthIndex b ∨
       (monthIndex a = monthIndex b ∧
        (a.day < b.day ∨ (a.day = b.day ∧ a.tod < b.tod)))) := by
  obtain ⟨ha1, ha2⟩ := ha
  obtain ⟨hb1, hb2⟩ := hb
  simp only [dtLt, monthIndex]
  split_ifs with h1 h2 h3 <;> simp only [decide_eq_true_eq] <;> omega

theorem bool_eq_decide {b : Bool} {p : Prop} [Decidable p]
    (h : b = true ↔ p) : b = decide p := by
  cases hb : b with
  | false =>
    have hp : ¬ p := by
      intro hp
      have hbt := h.mpr hp
      rw [hb] at hbt
      exact Bool.false_ne_true hbt
    exact (decide_eq_false hp).symm
  | true =>
    exact (decide_eq_true (h.mp hb)).symm

theorem dtLt_md_md (d : PyDateTime) (m1 m2 : Int) :
    dtLt (month_delta d m1) (month_delta d m2) = decide (m1 < m2) := by
  apply bool_eq_decide
  rw [dtLt_char _ _ (validMonth_month_delta d m1) (validMonth_month_delta d m2)]
  simp only [monthIndex_month_delta, month_delta_day, month_delta_tod]
  omega

theorem dtLt_self_md (d : PyDateTime) (m : Int) (hv : validMonth d)
    (hd : d.day ≤ 28) :
    dtLt d (month_delta d m) = decide (0 < m) := by
  apply bool_eq_decide
  rw [dtLt_char _ _ hv (validMonth_month_delta d m)]
  simp only [monthIndex_month_delta, month_delta_day, month_delta_tod]
  omega

theorem wfoWindowsAux_succ (tm tsm stm : Int) (endTs : PyDateTime)
    (keep : WfoWindow → Bool) (fuel : Nat) (ts : PyDateTime) :
    wfoWindowsAux tm tsm stm endTs keep (fuel + 1) ts =
      (if (dtLe endTs (month_delta ts tm) || dtLe endTs ts) = true then []
       else if dtLe endTs (month_delta ts tm) = true then []
       else if keep { train_start := ts, train_end := month_delta ts tm,
                      test_start := month_delta ts tm,
                      test_end := pyMinDT (month_delta (month_delta ts tm) tsm) endTs }
                = true then
         { train_start := ts, train_end := month_delta ts tm,
           test_start := month_delta ts tm,
           test_end := pyMinDT (month_delta (month_delta ts tm) tsm) endTs } ::
           wfoWindowsAux tm tsm stm endTs keep fuel (month_delta ts stm)
       else wfoWindowsAux tm tsm stm endTs keep fuel (month_delta ts stm)) := rfl

theorem wfoWindowsAux_shape (tm tsm stm : Int) (endTs : PyDateTime)
    (keep : WfoWindow → Bool) :
    ∀ fuel ts w, w ∈ wfoWindowsAux tm tsm stm endTs keep fuel ts →
      w.train_end = month_delta w.train_start tm ∧
      w.test_start = w.train_end ∧
      w.test_end = pyMinDT (month_delta w.train_end tsm) endTs ∧
      dtLe endTs w.train_end = false ∧
      dtLe endTs w.train_start = false := by
  intro fuel
  induction fuel with
  | zero =>
    intro ts w hw
    simp [wfoWindowsAux] at hw
  | succ n ih =>
    intro ts w hw
    rw [wfoWindowsAux_succ] at hw
    split at hw
    case isTrue h1 => simp at hw
    case isFalse h1 =>
      split at hw
      case isTrue h2 => simp at hw
      case isFalse h2 =>
        have h1' : dtLe endTs (month_delta ts tm) = false ∧ dtLe endTs ts = false := by
          revert h1
          cases dtLe endTs (month_delta ts tm) <;> cases dtLe endTs ts <;> simp
        split at hw
        case isTrue h3 =>
          rcases List.mem_cons.mp hw with hEq | hMem
          · subst hEq
            exact ⟨rfl, rfl, rfl, h1'.1, h1'.2⟩
          · exact ih _ _ hMem
        case isFalse h3 =>
          exact ih _ _ hw

theorem wfoWindowsAux_train_start_day (tm tsm stm : Int) (endTs : PyDateTime)
    (keep : WfoWindow → Bool) :
    ∀ fuel ts w, w ∈ wfoWindowsAux tm tsm stm endTs keep fuel ts →
      w.train_start.day = ts.day ∨ w.train_start.day = min ts.day 28 := by
  intro fuel
  induction fuel with
  | zero =>
    intro ts w hw
    simp [wfoWindowsAux] at hw
  | succ n ih =>
    intro ts w hw
    rw [wfoWindowsAux_succ] at hw
    split at hw
    case isTrue h1 => simp at hw
    case isFalse h1 =>
      split at hw
      case isTrue h2 => simp at hw
      case isFalse h2 =>
        have step : ∀ w', w' ∈ wfoWindowsAux tm tsm stm endTs keep n (month_delta ts stm) →
            w'.train_start.day = ts.day ∨ w'.train_start.day = min ts.day 28 := by
          intro w' hw'
          rcases ih (month_delta ts stm) w' hw' with h | h <;>
            rw [month_delta_day] at h <;> right <;> omega
        split at hw
        case isTrue h3 =>
          rcases List.mem_cons.mp hw with hEq | hMem
          · subst hEq
            left
            rfl
          · exact step w hMem
        case isFalse h3 =>
          exact step w hw

theorem run_wfo_windows_18 (s : PyDateTime) (keep : WfoWindow → Bool)
    (hv : validMonth s) (hd : s.day ≤ 28) (hkeep : ∀ w, keep w = true) :
    run_wfo_windows 12 3 3 s (month_delta s 18) keep =
      [{ train_start := s, train_end := month_delta s 12,
         test_start := month_delta s 12, test_end := month_delta s 15 },
       { train_start := month_delta s 3, train_end := month_delta s 15,
         test_start := month_delta s 15, test_end := month_delta s 18 }] := by
  have hfuel : (monthIndex (month_delta s 18) - monthIndex s).toNat + 2 = 20 := by
    rw [monthIndex_month_delta]
    omega
  have c12 : dtLe (month_delta s 18) (month_delta s 12) = false := by
    simp [dtLe, dtLt_md_md]
  have cS : dtLe (month_delta s 18) s = false := by
    simp [dtLe, dtLt_self_md s 18 hv hd]
  have c15 : dtLe (month_delta s 18) (month_delta s 15) = false := by
    simp [dtLe, dtLt_md_md]
  have c3 : dtLe (month_delta s 18) (month_delta s 3) = false := by
    simp [dtLe, dtLt_md_md]
  have c18 : dtLe (month_delta s 18) (month_delta s 18) = true := by
    simp [dtLe, dtLt_irrefl]
  have m0 : pyMinDT (month_delta (month_delta s 12) 3) (month_delta s 18) =
      month_delta s 15 := by
    rw [month_delta_add]
    norm_num
    rw [pyMinDT, dtLt_md_md]
    simp
  have m1 : pyMinDT (month_delta s 18) (month_delta s 18) = month_delta s 18 := by
    rw [pyMinDT, dtLt_irrefl]
    simp
  rw [run_wfo_windows, hfuel]
  rw [show (20 : Nat) = 19 + 1 from rfl, wfoWindowsAux_succ]
  rw [c12, cS, m0, hkeep]
  simp only [Bool.or_self, Bool.false_eq_true, if_false, if_true]
  rw [show (19 : Nat) = 18 + 1 from rfl, wfoWindowsAux_succ]
  simp only [month_delta_add,
    show (3 : Int) + 12 = 15 from by norm_num,
    show (3 : Int) + 3 = 6 from by norm_num,
    show (15 : Int) + 3 = 18 from by norm_num]
  rw [c15, c3, m1, hkeep]
  simp only [Bool.or_self, Bool.false_eq_true, if_false, if_true]
  rw [show (18 : Nat) = 17 + 1 from rfl, wfoWindowsAux_succ]
  simp only [month_delta_add,
    show (6 : Int) + 12 = 18 from by norm_num,
    show (6 : Int) + 3 = 9 from by norm_num,
    show (18 : Int) + 3 = 21 from by norm_num]
  rw [c18]
  simp

theorem mem_insertByStarted {r x : RunRow} :
    ∀ {l : List RunRow}, x ∈ insertByStarted r l ↔ x = r ∨ x ∈ l := by
  intro l
  induction l with
  | nil => simp [insertByStarted]
  | cons a as ih =>
    simp only [insertByStarted]
    split
    · simp [List.mem_cons]
    · simp only [List.mem_cons, ih]
      tauto

theorem pairwise_insertByStarted {r : RunRow} :
    ∀ {l : List RunRow},
      l.Pairwise (fun a b => a.started_at ≤ b.started_at) →
      (insertByStarted r l).Pairwise (fun a b => a.started_at ≤ b.started_at) := by
  intro l
  induction l with
  | nil =>
    intro _
    simp [insertByStarted]
  | cons a as ih =>
    intro hp
    rw [List.pairwise_cons] at hp
    obtain ⟨ha, has⟩ := hp
    simp only [insertByStarted]
    split
    next hlt =>
      rw [List.pairwise_cons]
      refine ⟨?_, List.pairwise_cons.mpr ⟨ha, has⟩⟩
      intro y hy
      rcases List.mem_cons.mp hy with rfl | hmem
      · omega
      · have := ha y hmem
        omega
    next hge =>
      rw [List.pairwise_cons]
      refine ⟨?_, ih has⟩
      intro y hy
      rcases mem_insertByStarted.mp hy with rfl | hmem
      · omega
      · exact ha y hmem

theorem orderByStarted_cons (a : RunRow) (as : List RunRow) :
    orderByStarted (a :: as) = insertByStarted a (orderByStarted as) := rfl

theorem mem_orderByStarted {x : RunRow} :
    ∀ {l : List RunRow}, x ∈ orderByStarted l ↔ x ∈ l := by
  intro l
  induction l with
  | nil => simp [orderByStarted]
  | cons a as ih =>
    rw [orderByStarted_cons, mem_insertByStarted, List.mem_cons, ih]

theorem pairwise_orderByStarted :
    ∀ (l : List RunRow),
      (orderByStarted l).Pairwise (fun a b => a.started_at ≤ b.started_at) := by
  intro l
  induction l with
  | nil => simp [orderByStarted]
  | cons a as ih =>
    rw [orderByStarted_cons]
    exact pairwise_insertByStarted ih

theorem fetch_next_queued_some {rows : List RunRow} {r : RunRow}
    (h : fetch_next_queued rows = some r) :
    r ∈ rows ∧ eligibleQueued r = true ∧ r.lockedBy = none ∧
    ∀ x ∈ rows, eligibleQueued x = true → x.lockedBy = none →
      r.started_at ≤ x.started_at := by
  unfold fetch_next_queued at h
  cases hfl : (orderByStarted (rows.filter eligibleQueued)).filter
      (fun q => q.lockedBy.isNone) with
  | nil =>
    rw [hfl] at h
    simp at h
  | cons y ys =>
    rw [hfl] at h
    simp only [List.head?_cons, Option.some.injEq] at h
    have h' : r = y := h.symm
    subst h'
    have hyin : r ∈ (orderByStarted (rows.filter eligibleQueued)).filter
        (fun q => q.lockedBy.isNone) := by
      rw [hfl]
      exact List.mem_cons_self _ _
    have hy2 := List.mem_filter.mp hyin
    have hrmem := List.mem_filter.mp (mem_orderByStarted.mp hy2.1)
    refine ⟨hrmem.1, hrmem.2, ?_, ?_⟩
    · have := hy2.2
      simpa [Option.isNone_iff_eq_none] using this
    · intro x hx he hl
      have hxfl : x ∈ (orderByStarted (rows.filter eligibleQueued)).filter
          (fun q => q.lockedBy.isNone) :=
        List.mem_filter.mpr
          ⟨mem_orderByStarted.mpr (List.mem_filter.mpr ⟨hx, he⟩), by simp [hl]⟩
      rw [hfl] at hxfl
      rcases List.mem_cons.mp hxfl with rfl | hxys
      · exact le_refl _
      · have hpw : ((orderByStarted (rows.filter eligibleQueued)).filter
            (fun q => q.lockedBy.isNone)).Pairwise
            (fun a b => a.started_at ≤ b.started_at) :=
          List.Pairwise.filter _ (pairwise_orderByStarted (rows.filter eligibleQueued))
        rw [hfl] at hpw
        exact (List.pairwise_cons.mp hpw).1 x hxys

theorem fetch_next_queued_none_iff (rows : List RunRow) :
    fetch_next_queued rows = none ↔
      ∀ x ∈ rows, eligibleQueued x = true → x.lockedBy ≠ none := by
  unfold fetch_next_queued
  rw [List.head?_eq_none_iff, List.filter_eq_nil_iff]
  constructor
  · intro h x hx he hl
    have hxin : x ∈ orderByStarted (rows.filter eligibleQueued) :=
      mem_orderByStarted.mpr (List.mem_filter.mpr ⟨hx, he⟩)
    exact h x hxin (by simp [hl])
  · intro h a ha hno
    have := List.mem_filter.mp (mem_orderByStarted.mp ha)
    exact h a this.1 this.2 (Option.isNone_iff_eq_none.mp hno)

theorem fetch_next_queued_empty : fetch_next_queued [] = none := rfl

theorem fetch_next_queued_isSome {rows : List RunRow} {x : RunRow}
    (hx : x ∈ rows) (he : eligibleQueued x = true) (hl : x.lockedBy = none) :
    ∃ r, fetch_next_queued rows = some r := by
  cases hcase : fetch_next_queued rows with
  | none => exact absurd hl ((fetch_next_queued_none_iff rows).mp hcase x hx he)
  | some r => exact ⟨r, rfl⟩

theorem eligibleQueued_status {r : RunRow} (h : eligibleQueued r = true) :
    r.status = .queued := by
  simp only [eligibleQueued, Bool.and_eq_true, decide_eq_true_eq] at h
  exact h.2

theorem mem_updateRow {rid : Nat} {f : RunRow → RunRow} {rows : List RunRow}
    {x : RunRow} (h : x ∈ updateRow rid f rows) :
    ∃ r0, r0 ∈ rows ∧ x = (if r0.id = rid then f r0 else r0) := by
  obtain ⟨r0, hr0, heq⟩ := List.mem_map.mp h
  exact ⟨r0, hr0, heq.symm⟩

theorem updateRow_cases {rid : Nat} {f : RunRow → RunRow} {rows : List RunRow}
    {q : RunRow} (h : q ∈ updateRow rid f rows) :
    (∃ q0, q0 ∈ rows ∧ q0.id = rid ∧ q = f q0) ∨ (q ∈ rows ∧ q.id ≠ rid) := by
  obtain ⟨q0, hq0, heq⟩ := mem_updateRow h
  by_cases hid : q0.id = rid
  · left
    exact ⟨q0, hq0, hid, by rw [heq, if_pos hid]⟩
  · right
    have hqq : q = q0 := by rw [heq, if_neg hid]
    rw [hqq]
    exact ⟨hq0, hid⟩

theorem updateRow_mem_of_ne {rid : Nat} {f : RunRow → RunRow} {rows : List RunRow}
    {r : RunRow} (h : r ∈ rows) (hne : r.id ≠ rid) : r ∈ updateRow rid f rows :=
  List.mem_map.mpr ⟨r, h, by rw [if_neg hne]⟩

theorem updateRow_mem_self {rid : Nat} {f : RunRow → RunRow} {rows : List RunRow}
    {r : RunRow} (h : r ∈ rows) (heq : r.id = rid) : f r ∈ updateRow rid f rows :=
  List.mem_map.mpr ⟨r, h, by rw [if_pos heq]⟩

theorem updateRow_ids (rid : Nat) (f : RunRow → RunRow)
    (hf : ∀ r, (f r).id = r.id) :
    ∀ rows : List RunRow,
      (updateRow rid f rows).map (fun r => r.id) = rows.map (fun r => r.id) := by
  intro rows
  induction rows with
  | nil => rfl
  | cons a as ih =>
    simp only [updateRow, List.map_cons] at ih ⊢
    have hhead : (if a.id = rid then f a else a).id = a.id := by
      split
      · exact hf a
      · rfl
    rw [hhead, ih]

theorem row_id_inj {rows : List RunRow} (h : (rows.map (fun r => r.id)).Nodup)
    {a b : RunRow} (ha : a ∈ rows) (hb : b ∈ rows) (hid : a.id = b.id) : a = b :=
  List.inj_on_of_nodup_map h ha hb hid

theorem setWorker_self (ws : Nat → WorkerPhase) (w : Nat) (ph : WorkerPhase) :
    setWorker ws w ph w = ph := by
  simp [setWorker]

theorem setWorker_other (ws : Nat → WorkerPhase) (w : Nat) (ph : WorkerPhase)
    {w' : Nat} (h : w' ≠ w) : setWorker ws w ph w' = ws w' := by
  simp [setWorker, h]

theorem claimCount_applyClaimCommit (s : OrchState) (w rid x : Nat) :
    claimCount (applyClaimCommit s w rid) x =
      claimCount s x + (if x = rid then 1 else 0) := by
  by_cases hx : x = rid <;>
    simp [claimCount, applyClaimCommit, List.count_cons, hx]

theorem inv_applySelect {s : OrchState} {w : Nat} {r : RunRow}
    (hinv : OrchInv s) (hidle : s.workers w = .idle)
    (hfetch : fetch_next_queued s.rows = some r) :
    OrchInv (applySelect s w r.id) := by
  obtain ⟨hnd, hcnt, hq0, hhold, hlock, hproc⟩ := hinv
  obtain ⟨hr, he, hlk, _⟩ := fetch_next_queued_some hfetch
  have hq := eligibleQueued_status he
  refine ⟨?_, ?_, ?_, ?_, ?_, ?_⟩
  · simp only [applySelect]
    rw [updateRow_ids r.id (fun q => { q with lockedBy := some w }) (fun _ => rfl)]
    exact hnd
  · intro x
    exact hcnt x
  · intro q hq' hst
    simp only [applySelect] at hq'
    rcases updateRow_cases hq' with ⟨q0, hq0m, hq0id, rfl⟩ | ⟨hmem, _⟩
    · exact hq0 q0 hq0m hst
    · exact hq0 q hmem hst
  · intro w' rid' hw'
    simp only [applySelect] at hw' ⊢
    by_cases hww : w' = w
    · rw [hww, setWorker_self] at hw'
      injection hw' with hinj
      rw [hww, ← hinj]
      exact ⟨{ r with lockedBy := some w }, updateRow_mem_self hr rfl, rfl, rfl, hq⟩
    · rw [setWorker_other _ _ _ hww] at hw'
      obtain ⟨q, hqm, hqid, hqlock, hqstat⟩ := hhold w' rid' hw'
      have hqne : q.id ≠ r.id := by
        intro heq
        have hqr : q = r := row_id_inj hnd hqm hr heq
        rw [hqr, hlk] at hqlock
        exact Option.noConfusion hqlock
      exact ⟨q, updateRow_mem_of_ne hqm hqne, hqid, hqlock, hqstat⟩
  · intro q hq' w'' hlw
    simp only [applySelect] at hq' ⊢
    rcases updateRow_cases hq' with ⟨q0, hq0m, hq0id, rfl⟩ | ⟨hmem, _⟩
    · have hlw' : some w = some w'' := hlw
      injection hlw' with hwe
      rw [← hwe, setWorker_self]
      have : ({ q0 with lockedBy := some w } : RunRow).id = r.id := hq0id
      rw [this]
    · have hwph := hlock q hmem w'' hlw
      have hne' : w'' ≠ w := by
        intro heq
        rw [heq, hidle] at hwph
        exact WorkerPhase.noConfusion hwph
      rw [setWorker_other _ _ _ hne']
      exact hwph
  · intro w' rid' hw'
    simp only [applySelect] at hw'
    by_cases hww : w' = w
    · subst hww
      rw [setWorker_self] at hw'
      exact WorkerPhase.noConfusion hw'
    · rw [setWorker_other _ _ _ hww] at hw'
      have hpr := hproc w' rid' hw'
      intro q hq' hqid
      simp only [applySelect] at hq'
      rcases updateRow_cases hq' with ⟨q0, hq0m, hq0id, rfl⟩ | ⟨hmem, _⟩
      · exfalso
        have hq0r : q0 = r := row_id_inj hnd hq0m hr hq0id
        have hqid' : q0.id = rid' := hqid
        have := (hpr q0 hq0m hqid').1
        rw [hq0r] at this
        exact this hq
      · exact hpr q hmem hqid

theorem inv_applyClaimCommit {s : OrchState} {w rid : Nat} (hinv : OrchInv s)
    (hw : s.workers w = .holding rid) : OrchInv (applyClaimCommit s w rid) := by
  obtain ⟨hnd, hcnt, hq0, hhold, hlock, hproc⟩ := hinv
  obtain ⟨r, hr, hrid, hrlock, hrstat⟩ := hhold w rid hw
  have hcount0 : claimCount s rid = 0 := by
    have h0 := hq0 r hr hrstat
    rw [hrid] at h0
    exact h0
  refine ⟨?_, ?_, ?_, ?_, ?_, ?_⟩
  · simp only [applyClaimCommit]
    rw [updateRow_ids rid
      (fun q => { q with status := .running, progress := 1, lockedBy := none })
      (fun _ => rfl)]
    exact hnd
  · intro x
    rw [claimCount_applyClaimCommit]
    by_cases hx : x = rid
    · subst hx
      rw [hcount0]
      simp
    · rw [if_neg hx]
      simpa using hcnt x
  · intro q hq' hst
    rw [claimCount_applyClaimCommit]
    simp only [applyClaimCommit] at hq'
    rcases updateRow_cases hq' with ⟨q0, hq0m, hq0id, rfl⟩ | ⟨hmem, hne⟩
    · have hst' : RunStatus.running = RunStatus.queued := hst
      exact RunStatus.noConfusion hst'
    · have h0 := hq0 q hmem hst
      rw [h0, if_neg hne]
  · intro w' rid' hw'
    simp only [applyClaimCommit] at hw' ⊢
    by_cases hww : w' = w
    · subst hww
      rw [setWorker_self] at hw'
      exact WorkerPhase.noConfusion hw'
    · rw [setWorker_other _ _ _ hww] at hw'
      obtain ⟨q, hqm, hqid, hqlock, hqstat⟩ := hhold w' rid' hw'
      have hqne : q.id ≠ rid := by
        intro heq
        have hqr : q = r := row_id_inj hnd hqm hr (by rw [heq, hrid])
        rw [hqr, hrlock] at hqlock
        injection hqlock with hwe
        exact hww hwe.symm
      exact ⟨q, updateRow_mem_of_ne hqm hqne, hqid, hqlock, hqstat⟩
  · intro q hq' w'' hlw
    simp only [applyClaimCommit] at hq' ⊢
    rcases updateRow_cases hq' with ⟨q0, hq0m, hq0id, rfl⟩ | ⟨hmem, hne⟩
    · have hlw' : (none : Option Nat) = some w'' := hlw
      exact Option.noConfusion hlw'
    · have hwph := hlock q hmem w'' hlw
      have hne' : w'' ≠ w := by
        intro heq
        rw [heq, hw] at hwph
        injection hwph with hh
        exact hne hh.symm
      rw [setWorker_other _ _ _ hne']
      exact hwph
  · intro w' rid' hw'
    simp only [applyClaimCommit] at hw'
    by_cases hww : w' = w
    · subst hww
      rw [setWorker_self] at hw'
      injection hw' with hr'
      subst hr'
      intro q hq' hqid
      simp only [applyClaimCommit] at hq'
      rcases updateRow_cases hq' with ⟨q0, hq0m, hq0id, rfl⟩ | ⟨hmem, hne⟩
      · exact ⟨fun hcon => RunStatus.noConfusion hcon, rfl⟩
      · exact absurd hqid hne
    · rw [setWorker_other _ _ _ hww] at hw'
      have hpr := hproc w' rid' hw'
      intro q hq' hqid
      simp only [applyClaimCommit] at hq'
      rcases updateRow_cases hq' with ⟨q0, hq0m, hq0id, rfl⟩ | ⟨hmem, hne⟩
      · exact ⟨fun hcon => RunStatus.noConfusion hcon, rfl⟩
      · exact hpr q hmem hqid

theorem inv_applyProgress {s : OrchState} {w rid : Nat} {p : Int}
    (hinv : OrchInv s) (hw : s.workers w = .processing rid) :
    OrchInv (applyProgress s rid p) := by
  obtain ⟨hnd, hcnt, hq0, hhold, hlock, hproc⟩ := hinv
  have hpr0 := hproc w rid hw
  refine ⟨?_, ?_, ?_, ?_, ?_, ?_⟩
  · simp only [applyProgress]
    rw [updateRow_ids rid (fun q => { q with status := .running, progress := p })
      (fun _ => rfl)]
    exact hnd
  · intro x
    exact hcnt x
  · intro q hq' hst
    simp only [applyProgress] at hq'
    rcases updateRow_cases hq' with ⟨q0, hq0m, hq0id, rfl⟩ | ⟨hmem, _⟩
    · have hst' : RunStatus.running = RunStatus.queued := hst
      exact RunStatus.noConfusion hst'
    · exact hq0 q hmem hst
  · intro w' rid' hw'
    simp only [applyProgress] at hw' ⊢
    obtain ⟨q, hqm, hqid, hqlock, hqstat⟩ := hhold w' rid' hw'
    have hqne : q.id ≠ rid := by
      intro heq
      exact (hpr0 q hqm heq).1 hqstat
    exact ⟨q, updateRow_mem_of_ne hqm hqne, hqid, hqlock, hqstat⟩
  · intro q hq' w'' hlw
    simp only [applyProgress] at hq' ⊢
    rcases updateRow_cases hq' with ⟨q0, hq0m, hq0id, rfl⟩ | ⟨hmem, _⟩
    · have hlw' : q0.lockedBy = some w'' := hlw
      rw [(hpr0 q0 hq0m hq0id).2] at hlw'
      exact Option.noConfusion hlw'
    · exact hlock q hmem w'' hlw
  · intro w' rid' hw'
    simp only [applyProgress] at hw'
    have hpr := hproc w' rid' hw'
    intro q hq' hqid
    simp only [applyProgress] at hq'
    rcases updateRow_cases hq' with ⟨q0, hq0m, hq0id, rfl⟩ | ⟨hmem, _⟩
    · exact ⟨fun hcon => RunStatus.noConfusion hcon, (hpr0 q0 hq0m hq0id).2⟩
    · exact hpr q hmem hqid

theorem inv_finish_generic {s s' : OrchState} {w rid : Nat}
    (f : RunRow → RunRow) (hinv : OrchInv s)
    (hw : s.workers w = .processing rid)
    (hfid : ∀ q, (f q).id = q.id)
    (hfstat : ∀ q, (f q).status ≠ .queued)
    (hflock : ∀ q, (f q).lockedBy = q.lockedBy)
    (hrows : s'.rows = updateRow rid f s.rows)
    (hworkers : s'.workers = setWorker s.workers w .idle)
    (hclaims : s'.claims = s.claims) :
    OrchInv s' := by
  obtain ⟨hnd, hcnt, hq0, hhold, hlock, hproc⟩ := hinv
  have hpr0 := hproc w rid hw
  have hccount : ∀ x, claimCount s' x = claimCount s x := by
    intro x
    simp [claimCount, hclaims]
  refine ⟨?_, ?_, ?_, ?_, ?_, ?_⟩
  · rw [hrows, updateRow_ids rid f hfid]
    exact hnd
  · intro x
    rw [hccount]
    exact hcnt x
  · intro q hq' hst
    rw [hrows] at hq'
    rw [hccount]
    rcases updateRow_cases hq' with ⟨q0, hq0m, hq0id, rfl⟩ | ⟨hmem, _⟩
    · exact absurd hst (hfstat q0)
    · exact hq0 q hmem hst
  · intro w' rid' hw'
    rw [hworkers] at hw'
    by_cases hww : w' = w
    · subst hww
      rw [setWorker_self] at hw'
      exact WorkerPhase.noConfusion hw'
    · rw [setWorker_other _ _ _ hww] at hw'
      obtain ⟨q, hqm, hqid, hqlock, hqstat⟩ := hhold w' rid' hw'
      have hqne : q.id ≠ rid := by
        intro heq
        exact (hpr0 q hqm heq).1 hqstat
      rw [hrows]
      exact ⟨q, updateRow_mem_of_ne hqm hqne, hqid, hqlock, hqstat⟩
  · intro q hq' w'' hlw
    rw [hrows] at hq'
    rcases updateRow_cases hq' with ⟨q0, hq0m, hq0id, rfl⟩ | ⟨hmem, _⟩
    · have hlw' : q0.lockedBy = some w'' := by
        rw [← hflock q0]
        exact hlw
      rw [(hpr0 q0 hq0m hq0id).2] at hlw'
      exact Option.noConfusion hlw'
    · have hwph := hlock q hmem w'' hlw
      have hne' : w'' ≠ w := by
        intro heq
        rw [heq, hw] at hwph
        exact WorkerPhase.noConfusion hwph
      rw [hworkers, setWorker_other _ _ _ hne']
      exact hwph
  · intro w' rid' hw'
    rw [hworkers] at hw'
    by_cases hww : w' = w
    · subst hww
      rw [setWorker_self] at hw'
      exact WorkerPhase.noConfusion hw'
    · rw [setWorker_other _ _ _ hww] at hw'
      have hpr := hproc w' rid' hw'
      intro q hq' hqid
      rw [hrows] at hq'
      rcases updateRow_cases hq' with ⟨q0, hq0m, hq0id, rfl⟩ | ⟨hmem, _⟩
      · refine ⟨hfstat q0, ?_⟩
        rw [hflock q0]
        exact (hpr0 q0 hq0m hq0id).2
      · exact hpr q hmem hqid

theorem inv_step {s s' : OrchState} (hinv : OrchInv s) (hstep : OrchStep s s') :
    OrchInv s' := by
  cases hstep with
  | select hidle hfetch => exact inv_applySelect hinv hidle hfetch
  | claimCommit hw => exact inv_applyClaimCommit hinv hw
  | report hw => exact inv_applyProgress hinv hw
  | finishOk hw hres =>
    exact inv_finish_generic
      (fun q => { q with status := .succeeded, progress := 100 })
      hinv hw (fun _ => rfl)
      (fun _ h => RunStatus.noConfusion h) (fun _ => rfl) rfl rfl rfl
  | finishFail hw =>
    exact inv_finish_generic
      (fun q => { q with status := .failed, progress := 100, error := some _ })
      hinv hw (fun _ => rfl)
      (fun _ h => RunStatus.noConfusion h) (fun _ => rfl) rfl rfl rfl

theorem inv_init {s : OrchState} (h : OrchInit s) : OrchInv s := by
  obtain ⟨hw, hc, hnd, hl⟩ := h
  refine ⟨hnd, ?_, ?_, ?_, ?_, ?_⟩
  · intro x
    simp [claimCount, hc]
  · intro q _ _
    simp [claimCount, hc]
  · intro w rid hww
    rw [hw w] at hww
    exact WorkerPhase.noConfusion hww
  · intro q hq w' hlw
    rw [hl q hq] at hlw
    exact Option.noConfusion hlw
  · intro w rid hww
    rw [hw w] at hww
    exact WorkerPhase.noConfusion hww

theorem inv_reachable {s0 s : OrchState} (h0 : OrchInit s0)
    (hr : OrchReachable s0 s) : OrchInv s := by
  induction hr with
  | refl => exact inv_init h0
  | tail _ hstep ih => exact inv_step ih hstep

/-- C1: in every state reachable from an initial backlog by concurrently
polling workers, each run id occurs at most once among the committed
claims, and a claimed run is never observed as queued again, because the
claim transaction moves the selected row to running with progress 1 in
the same unit of work that releases the row lock. -/
theorem claim_at_most_once (s0 s : OrchState) (h0 : OrchInit s0)
    (hr : OrchReachable s0 s) :
    (∀ rid, claimCount s rid ≤ 1) ∧
    (∀ r ∈ s.rows, 1 ≤ claimCount s r.id → r.status ≠ RunStatus.queued) := by
  have hinv := inv_reachable h0 hr
  obtain ⟨_, hcnt, hq0, _, _, _⟩ := hinv
  refine ⟨hcnt, ?_⟩
  intro r hrm hge hst
  have h0c := hq0 r hrm hst
  omega

theorem claim_at_most_once_witness :
    claimCount demoAfterClaim 1 ≤ 1 ∧
    (∀ r ∈ demoAfterClaim.rows, 1 ≤ claimCount demoAfterClaim r.id →
      r.status ≠ RunStatus.queued) := by
  have h0 : OrchInit demoInit := ⟨fun _ => rfl, rfl, by decide, by decide⟩
  have hs1 : OrchStep demoInit demoAfterSelect :=
    OrchStep.select rfl (show fetch_next_queued demoInit.rows = some demoRow by decide)
  have hs2 : OrchStep demoAfterSelect demoAfterClaim :=
    OrchStep.claimCommit rfl
  have hreach : OrchReachable demoInit demoAfterClaim :=
    Relation.ReflTransGen.tail
      (Relation.ReflTransGen.tail Relation.ReflTransGen.refl hs1) hs2
  have h := claim_at_most_once demoInit demoAfterClaim h0 hreach
  exact ⟨h.1 1, h.2⟩

/-- C3: fetch_next_queued returns none on an empty backlog without
raising; when it returns a row, that row is queued with a supported run
type, unlocked, and has the earliest started_at among all eligible
unlocked rows; when every eligible row is locked it returns none rather
than waiting; and it returns a row whenever some eligible unlocked row
exists. -/
theorem fetch_next_queued_spec :
    fetch_next_queued [] = none ∧
    (∀ rows r, fetch_next_queued rows = some r →
      r ∈ rows ∧ eligibleQueued r = true ∧ r.lockedBy = none ∧
      ∀ x ∈ rows, eligibleQueued x = true → x.lockedBy = none →
        r.started_at ≤ x.started_at) ∧
    (∀ rows, (∀ x ∈ rows, eligibleQueued x = true → x.lockedBy ≠ none) →
      fetch_next_queued rows = none) ∧
    (∀ rows x, x ∈ rows → eligibleQueued x = true → x.lockedBy = none →
      ∃ r, fetch_next_queued rows = some r) := by
  refine ⟨fetch_next_queued_empty, ?_, ?_, ?_⟩
  · intro rows r h
    exact fetch_next_queued_some h
  · intro rows h
    exact (fetch_next_queued_none_iff rows).mpr h
  · intro rows x hx he hl
    exact fetch_next_queued_isSome hx he hl

theorem fetch_next_queued_spec_witness :
    fetch_next_queued [demoLockedRow] = none :=
  fetch_next_queued_spec.2.2.1 [demoLockedRow] (by decide)

/-- C5: when a handler raises while a worker processes a claimed run,
the worker loop catches the error, marks that run failed with progress
100 and the message stored verbatim, returns to polling with the loop
intact, and the next fetch can only return a different, still queued
run; selection is enabled whenever an eligible unlocked row remains. -/
theorem worker_failure_isolated (s : OrchState) (w rid : Nat) (msg : String)
    (hw : s.workers w = .processing rid) :
    OrchStep s (applyFinishFail s w rid msg) ∧
    (∀ r ∈ (applyFinishFail s w rid msg).rows, r.id = rid →
      r.status = RunStatus.failed ∧ r.progress = 100 ∧ r.error = some msg) ∧
    (applyFinishFail s w rid msg).workers w = .idle ∧
    (∀ x ∈ (applyFinishFail s w rid msg).rows,
      eligibleQueued x = true → x.lockedBy = none →
      ∃ r', fetch_next_queued (applyFinishFail s w rid msg).rows = some r') ∧
    (∀ r', fetch_next_queued (applyFinishFail s w rid msg).rows = some r' →
      r'.status = RunStatus.queued ∧ r'.id ≠ rid ∧
      OrchStep (applyFinishFail s w rid msg)
        (applySelect (applyFinishFail s w rid msg) w r'.id)) := by
  have hfailed : ∀ r ∈ (applyFinishFail s w rid msg).rows, r.id = rid →
      r.status = RunStatus.failed ∧ r.progress = 100 ∧ r.error = some msg := by
    intro r hmem hid
    simp only [applyFinishFail] at hmem
    rcases updateRow_cases hmem with ⟨q0, _, _, rfl⟩ | ⟨_, hne⟩
    · exact ⟨rfl, rfl, rfl⟩
    · exact absurd hid hne
  have hidle : (applyFinishFail s w rid msg).workers w = .idle := by
    simp only [applyFinishFail]
    rw [setWorker_self]
  refine ⟨OrchStep.finishFail hw, hfailed, hidle, ?_, ?_⟩
  · intro x hx he hl
    exact fetch_next_queued_isSome hx he hl
  · intro r' hf
    obtain ⟨hmem, he, _, _⟩ := fetch_next_queued_some hf
    have hqst := eligibleQueued_status he
    refine ⟨hqst, ?_, OrchStep.select hidle hf⟩
    intro heq
    have := (hfailed r' hmem heq).1
    rw [this] at hqst
    exact RunStatus.noConfusion hqst

theorem worker_failure_isolated_witness :
    (∀ r ∈ (applyFinishFail demoAfterClaim 0 1 "boom").rows, r.id = 1 →
      r.status = RunStatus.failed ∧ r.progress = 100 ∧
      r.error = some ("boom")) ∧
    (applyFinishFail demoAfterClaim 0 1 "boom").workers 0 = .idle := by
  have h := worker_failure_isolated demoAfterClaim 0 1 "boom" rfl
  exact ⟨h.2.1, h.2.2.1⟩

/-- C7: when the dispatched handler of a claimed run completes normally,
the run is set to succeeded with progress 100 and the result rows the
handler produced are persisted. -/
theorem worker_success_persists (s : OrchState) (w rid : Nat)
    (rs : List ResultRow) (hw : s.workers w = .processing rid)
    (hres : ∀ x ∈ rs, x.run_id = rid) :
    OrchStep s (applyFinishOk s w rid rs) ∧
    (∀ r ∈ (applyFinishOk s w rid rs).rows, r.id = rid →
      r.status = RunStatus.succeeded ∧ r.progress = 100) ∧
    (applyFinishOk s w rid rs).results = s.results ++ rs := by
  refine ⟨OrchStep.finishOk hw hres, ?_, rfl⟩
  intro r hmem hid
  simp only [applyFinishOk] at hmem
  rcases updateRow_cases hmem with ⟨q0, _, _, rfl⟩ | ⟨_, hne⟩
  · exact ⟨rfl, rfl⟩
  · exact absurd hid hne

theorem worker_success_persists_witness :
    (∀ r ∈ (applyFinishOk demoAfterClaim 0 1 [⟨1, "main"⟩]).rows, r.id = 1 →
      r.status = RunStatus.succeeded ∧ r.progress = 100) ∧
    (applyFinishOk demoAfterClaim 0 1 [⟨1, "main"⟩]).results =
      demoAfterClaim.results ++ [⟨1, "main"⟩] := by
  have h := worker_success_persists demoAfterClaim 0 1 [⟨1, "main"⟩] rfl
    (by decide)
  exact ⟨h.2.1, h.2.2⟩

/-- C2 counterexample: a series spanning a true calendar 18 months but
starting on day 30 (2020-01-30 to 2021-07-30) does not produce exactly
2 folds with trainMonths 12, testMonths 3, stepMonths 3: the day clamp
of the month-advance helper slips the advanced train starts to day 28,
so a third window fits before the series end and 3 folds are produced,
the third with test window 2021-07-28 to 2021-07-30. -/
theorem run_wfo_two_folds_cex :
    ¬ ((run_wfo_windows 12 3 3 ⟨2020, 1, 30, 0⟩ ⟨2021, 7, 30, 0⟩
          (fun _ => true)).length = 2) := by
  decide

/-- C2 amended: every generated walk-forward window satisfies trainEnd
equal to trainStart advanced by trainMonths, testStart equal to
trainEnd, testEnd equal to the minimum of testStart advanced by
testMonths and the series end, and the loop has not yet reached the
series end; and over a series spanning exactly 18 months whose start
day-of-month is at most 28, trainMonths 12, testMonths 3 and stepMonths
3 produce exactly 2 folds, in order, with touching, non-overlapping
test windows.  For start days 29 to 31 the day clamp of the
month-advance helper can let a third window fit, so the day bound is
necessary. -/
theorem run_wfo_window_spec :
    (∀ (tm tsm stm : Int) (endTs : PyDateTime) (keep : WfoWindow → Bool)
       (fuel : Nat) (ts : PyDateTime) (w : WfoWindow),
       w ∈ wfoWindowsAux tm tsm stm endTs keep fuel ts →
       w.train_end = month_delta w.train_start tm ∧
       w.test_start = w.train_end ∧
       w.test_end = pyMinDT (month_delta w.test_start tsm) endTs ∧
       dtLe endTs w.train_end = false ∧
       dtLe endTs w.train_start = false) ∧
    (∀ (s : PyDateTime) (keep : WfoWindow → Bool),
       validMonth s → s.day ≤ 28 → (∀ w, keep w = true) →
       run_wfo_windows 12 3 3 s (month_delta s 18) keep =
         [{ train_start := s, train_end := month_delta s 12,
            test_start := month_delta s 12, test_end := month_delta s 15 },
          { train_start := month_delta s 3, train_end := month_delta s 15,
            test_start := month_delta s 15, test_end := month_delta s 18 }] ∧
       dtLe (month_delta s 15) (month_delta s 15) = true) := by
  constructor
  · intro tm tsm stm endTs keep fuel ts w hw
    obtain ⟨h1, h2, h3, h4, h5⟩ := wfoWindowsAux_shape tm tsm stm endTs keep fuel ts w hw
    refine ⟨h1, h2, ?_, h4, h5⟩
    rw [h2]
    exact h3
  · intro s keep hv hd hkeep
    refine ⟨run_wfo_windows_18 s keep hv hd hkeep, ?_⟩
    simp [dtLe, dtLt_irrefl]

theorem run_wfo_window_spec_witness :
    run_wfo_windows 12 3 3 ⟨2020, 1, 15, 0⟩
        (month_delta ⟨2020, 1, 15, 0⟩ 18) (fun _ => true) =
      [{ train_start := ⟨2020, 1, 15, 0⟩,
         train_end := month_delta ⟨2020, 1, 15, 0⟩ 12,
         test_start := month_delta ⟨2020, 1, 15, 0⟩ 12,
         test_end := month_delta ⟨2020, 1, 15, 0⟩ 15 },
       { train_start := month_delta ⟨2020, 1, 15, 0⟩ 3,
         train_end := month_delta ⟨2020, 1, 15, 0⟩ 15,
         test_start := month_delta ⟨2020, 1, 15, 0⟩ 15,
         test_end := month_delta ⟨2020, 1, 15, 0⟩ 18 }] ∧
    dtLe (month_delta ⟨2020, 1, 15, 0⟩ 15) (month_delta ⟨2020, 1, 15, 0⟩ 15) = true :=
  run_wfo_window_spec.2 ⟨2020, 1, 15, 0⟩ (fun _ => true)
    (by constructor <;> norm_num) (by norm_num) (fun _ => rfl)

/-- C4: the grid and constraint evaluator yields exactly the Cartesian
product of the parsed per-parameter value lists filtered by the
constraint, where an empty expression or a failed evaluation counts as
satisfied; grid fast=5:10:1,slow=20:20:1 parses to the two expected
value lists, and with constraint fast<slow all 6 product tuples satisfy
the constraint and are kept. -/
theorem grid_candidates_spec :
    (∀ (ev : PyStr → List (PyStr × Int) → Option Bool)
       (g : List (PyStr × List Int)) (expr : PyStr) (c : List (PyStr × Int)),
       c ∈ grid_candidates ev g expr ↔
         (c ∈ grid_product g ∧
          (expr = [] ∨ ev expr c = none ∨ ev expr c = some true))) ∧
    parse_grid ("fast=5:10:1,slow=20:20:1".toList) =
      some [("fast".toList, [5, 6, 7, 8, 9, 10]), ("slow".toList, [20])] ∧
    (grid_candidates evalVarLtExpr
      [("fast".toList, [5, 6, 7, 8, 9, 10]), ("slow".toList, [20])]
      ("fast<slow".toList)).length = 6 ∧
    (∀ c ∈ grid_candidates evalVarLtExpr
        [("fast".toList, [5, 6, 7, 8, 9, 10]), ("slow".toList, [20])]
        ("fast<slow".toList),
      constraint_ok evalVarLtExpr c ("fast<slow".toList) = true) ∧
    grid_candidates evalVarLtExpr
        [("fast".toList, [5, 6, 7, 8, 9, 10]), ("slow".toList, [20])]
        ("fast<slow".toList) =
      grid_product [("fast".toList, [5, 6, 7, 8, 9, 10]), ("slow".toList, [20])] := by
  refine ⟨?_, by decide, by decide, by decide, by decide⟩
  intro ev g expr c
  have hok : constraint_ok ev c expr = true ↔
      (expr = [] ∨ ev expr c = none ∨ ev expr c = some true) := by
    unfold constraint_ok
    split_ifs with he
    · have he' : expr = [] := List.isEmpty_iff.mp he
      simp [he']
    · have he' : ¬ expr = [] := fun hx => he (List.isEmpty_iff.mpr hx)
      cases hev : ev expr c with
      | none => simp [he']
      | some b =>
        cases b with
        | false => simp [he']
        | true => simp [he']
  unfold grid_candidates
  rw [List.mem_filter, hok]

theorem grid_candidates_spec_witness :
    constraint_ok evalVarLtExpr
      [("fast".toList, (5 : Int)), ("slow".toList, (20 : Int))]
      ("fast<slow".toList) = true :=
  grid_candidates_spec.2.2.2.1
    [("fast".toList, (5 : Int)), ("slow".toList, (20 : Int))] (by decide)

/-- C6: for each control path of a claimed backtest run, the persisted
sequence of progress values is non-decreasing and ends at 100 together
with a terminal status, every terminal update carries progress 100, and
the progress callback filter only ever emits strictly increasing values
above the last reported one. -/
theorem progress_updates_monotone :
    (∀ (fail5 skip20 skip90 : Bool) (oc : BtOutcome),
      List.Chain' (fun a b => a.2 ≤ b.2)
        (process_backtest_updates fail5 skip20 skip90 oc) ∧
      (process_backtest_updates fail5 skip20 skip90 oc).getLast?.map Prod.snd =
        some 100 ∧
      ((process_backtest_updates fail5 skip20 skip90 oc).getLast?.map Prod.fst =
          some RunStatus.succeeded ∨
       (process_backtest_updates fail5 skip20 skip90 oc).getLast?.map Prod.fst =
          some RunStatus.failed) ∧
      (∀ u ∈ process_backtest_updates fail5 skip20 skip90 oc,
        (u.1 = RunStatus.succeeded ∨ u.1 = RunStatus.failed) → u.2 = 100)) ∧
    (∀ (last : Int) (ps : List Int),
      List.Chain' (fun a b => a < b) (on_progress_emitted last ps) ∧
      ∀ q ∈ on_progress_emitted last ps, last < q) := by
  constructor
  · intro fail5 skip20 skip90 oc
    rcases oc with rc | msg
    · by_cases hrc : rc = 0
      · subst hrc
        cases fail5 <;> cases skip20 <;> cases skip90 <;>
          exact ⟨by norm_num [process_backtest_updates, List.chain'_cons],
            by decide, by decide, by decide⟩
      · cases fail5 <;> cases skip20 <;> cases skip90 <;>
          (simp only [process_backtest_updates, if_neg hrc]
           exact ⟨by norm_num [List.chain'_cons], by decide, by decide, by decide⟩)
    · cases fail5 <;> cases skip20 <;> cases skip90 <;>
        (simp only [process_backtest_updates]
         exact ⟨by norm_num [List.chain'_cons], by decide, by decide, by decide⟩)
  · intro last ps
    induction ps generalizing last with
    | nil => simp [on_progress_emitted]
    | cons p ps ih =>
      simp only [on_progress_emitted]
      split
      next hle =>
        exact ih last
      next hgt =>
        have hlt : last < p := by omega
        obtain ⟨ihc, ihm⟩ := ih p
        constructor
        · rw [List.chain'_cons']
          refine ⟨?_, ihc⟩
          intro y hy
          exact ihm y (List.mem_of_mem_head? hy)
        · intro q hq
          rcases List.mem_cons.mp hq with rfl | hmem
          · exact hlt
          · exact lt_trans hlt (ihm q hmem)

theorem progress_updates_monotone_witness :
    List.Chain' (fun a b => a.2 ≤ b.2)
      (process_backtest_updates false false false (BtOutcome.ret 0)) ∧
    (∀ q ∈ on_progress_emitted 0 [10, 5, 20], 0 < q) :=
  ⟨(progress_updates_monotone.1 false false false (BtOutcome.ret 0)).1,
   (progress_updates_monotone.2 0 [10, 5, 20]).2⟩

theorem nat_ceil_div_eq (q c : Nat) (hc : 1 ≤ c) :
    Nat.ceil ((q : ℚ) / (c : ℚ)) = (q + c - 1) / c := by
  have hc0 : (0 : ℚ) < (c : ℚ) := by
    have hcc : 0 < c := hc
    exact_mod_cast hcc
  have hA : ∀ n : Nat, Nat.ceil ((q : ℚ) / (c : ℚ)) ≤ n ↔ q ≤ c * n := by
    intro n
    rw [Nat.ceil_le, div_le_iff₀ hc0]
    constructor
    · intro h
      have hcast : (q : ℚ) ≤ ((c * n : Nat) : ℚ) := by
        push_cast
        linarith
      exact_mod_cast hcast
    · intro h
      have hcast : (q : ℚ) ≤ ((c * n : Nat) : ℚ) := by exact_mod_cast h
      push_cast at hcast
      linarith
  have hB : ∀ n : Nat, (q + c - 1) / c ≤ n ↔ q ≤ c * n := by
    intro n
    rw [Nat.div_le_iff_le_mul_add_pred (show 0 < c by omega)]
    generalize c * n = X
    omega
  apply Nat.le_antisymm
  · exact (hA _).mpr ((hB _).mp le_rfl)
  · exact (hB _).mpr ((hA _).mp le_rfl)

/-- C8: the autoscaler's desired worker-process count is the clamp of
the ceiling of queued over capacity between the configured bounds; with
queued 9, capacity 3, bounds 1 and 4 it is 3, with queued 0 it is the
lower bound 1, and it is never 0 while both bounds are at least 1. -/
theorem desired_procs_spec :
    (∀ queued cap lo hi, 1 ≤ cap →
      desired_procs queued cap lo hi =
        clampNat (Nat.ceil ((queued : ℚ) / (cap : ℚ))) lo hi ∧
      desired_procs queued cap lo hi =
        clampNat ((queued + cap - 1) / cap) lo hi) ∧
    desired_procs 9 3 1 4 = 3 ∧
    (∀ cap, desired_procs 0 cap 1 4 = 1) ∧
    (∀ queued cap lo hi, 1 ≤ lo → 1 ≤ hi →
      1 ≤ desired_procs queued cap lo hi) := by
  have hmain : ∀ queued cap lo hi, 1 ≤ cap →
      desired_procs queued cap lo hi =
        clampNat (Nat.ceil ((queued : ℚ) / (cap : ℚ))) lo hi ∧
      desired_procs queued cap lo hi =
        clampNat ((queued + cap - 1) / cap) lo hi := by
    intro q c lo hi hc
    have hmax : max 1 c = c := max_eq_right hc
    constructor
    · simp only [desired_procs, clampNat, hmax]
      rw [max_comm]
    · simp only [desired_procs, clampNat, hmax]
      rw [nat_ceil_div_eq q c hc, max_comm]
  refine ⟨hmain, ?_, ?_, ?_⟩
  · have h := (hmain 9 3 1 4 (by norm_num)).2
    rw [h]
    decide
  · intro cap
    simp [desired_procs]
  · intro queued cap lo hi hlo hhi
    simp only [desired_procs]
    omega

theorem desired_procs_spec_witness :
    desired_procs 9 3 1 4 = clampNat ((9 + 3 - 1) / 3) 1 4 ∧
    1 ≤ desired_procs 9 3 1 4 :=
  ⟨(desired_procs_spec.1 9 3 1 4 (by norm_num)).2,
   desired_procs_spec.2.2.2 9 3 1 4 (by norm_num) (by norm_num)⟩

/-- C9 counterexample: with two spawned workers, oldest first, and a
desired count of one, the scale-down loop terminates the newest worker,
not the oldest one the claim predicts. -/
theorem scale_down_oldest_cex :
    ¬ ((scale_down [0, 1] 1).2 = List.take (List.length [0, 1] - 1) [0, 1]) := by
  decide

theorem kill_from_end_spec {α : Type} :
    ∀ (n : Nat) (ws : List α), n ≤ ws.length →
      kill_from_end n ws =
        (ws.take (ws.length - n), (ws.drop (ws.length - n)).reverse) := by
  intro n
  induction n with
  | zero =>
    intro ws h
    simp [kill_from_end]
  | succ m ih =>
    intro ws h
    cases hws : ws.getLast? with
    | none =>
      rw [List.getLast?_eq_none_iff] at hws
      subst hws
      simp at h
    | some a =>
      have hne : ws ≠ [] := by
        intro hnil
        rw [hnil] at hws
        simp at hws
      obtain ⟨l, rfl⟩ : ∃ l, ws = l ++ [a] := by
        refine ⟨ws.dropLast, ?_⟩
        have hg := List.getLast?_eq_getLast ws hne
        rw [hws] at hg
        injection hg with hga
        rw [hga]
        exact (List.dropLast_append_getLast hne).symm
      have hdl : (l ++ [a]).dropLast = l := by simp
      have hlen : (l ++ [a]).length = l.length + 1 := by simp
      have hm : m ≤ l.length := by
        rw [hlen] at h
        omega
      simp only [kill_from_end, hws, hdl]
      rw [ih l hm]
      simp only [hlen]
      have hsub : l.length + 1 - (m + 1) = l.length - m := by omega
      rw [hsub]
      have hkle : l.length - m ≤ l.length := by omega
      rw [List.take_append_of_le_length hkle,
        List.drop_append_of_le_length hkle, List.reverse_append]
      simp

/-- C9 amended: whenever desired is below the current count, the
scale-down loop terminates exactly current minus desired workers,
choosing the newest-spawned first (the loop pops the end of the
spawn-ordered list), and the oldest desired workers survive. -/
theorem scale_down_newest_first {α : Type} (ws : List α) (desired : Nat)
    (h : desired ≤ ws.length) :
    scale_down ws desired = (ws.take desired, (ws.drop desired).reverse) ∧
    (scale_down ws desired).2.length = ws.length - desired ∧
    (scale_down ws desired).1.length = desired := by
  have hmain : scale_down ws desired = (ws.take desired, (ws.drop desired).reverse) := by
    unfold scale_down
    rw [kill_from_end_spec (ws.length - desired) ws (by omega)]
    have he : ws.length - (ws.length - desired) = desired := by omega
    rw [he]
  refine ⟨hmain, ?_, ?_⟩
  · rw [hmain]
    simp
  · rw [hmain]
    simp
    omega

theorem scale_down_newest_first_witness :
    scale_down [0, 1] 1 = ([0], [1]) ∧
    (scale_down [0, 1] 1).2.length = 1 := by
  have h := scale_down_newest_first [0, 1] 1 (by decide)
  exact ⟨h.1.trans (by decide), h.2.1⟩

/-- C10 counterexample: for a series starting on day 30 and ending on
day 30 of a later month, the produced fold's test end is the series end
itself and falls on day 30, so not every derived window boundary falls
on day 28. -/
theorem month_day_clamp_cex :
    ¬ (∀ w ∈ run_wfo_windows 12 3 3 ⟨2020, 1, 30, 0⟩ ⟨2021, 3, 30, 0⟩
          (fun _ => true),
        w.train_end.day = 28 ∧ w.test_start.day = 28 ∧ w.test_end.day = 28) := by
  decide

/-- C10 amended: the month-advance helper always returns a day equal to
the minimum of the input day and 28, so for start days 29 to 31 every
boundary the helper produces falls on day 28 and is not an exact
calendar offset; in every generated window the train end and test start
fall on day 28, and the test end either falls on day 28 or is the
series end itself, whose day is preserved by the min clamp. -/
theorem month_delta_day_clamp :
    (∀ d m, (month_delta d m).day = min d.day 28) ∧
    (∀ d m, 29 ≤ d.day →
      (month_delta d m).day = 28 ∧ (month_delta d m).day ≠ d.day) ∧
    (∀ (tm tsm stm : Int) (endTs : PyDateTime) (keep : WfoWindow → Bool)
       (fuel : Nat) (ts : PyDateTime) (w : WfoWindow), 29 ≤ ts.day →
       w ∈ wfoWindowsAux tm tsm stm endTs keep fuel ts →
       w.train_end.day = 28 ∧ w.test_start.day = 28 ∧
       (w.test_end = endTs ∨ w.test_end.day = 28)) := by
  refine ⟨fun d m => month_delta_day d m, ?_, ?_⟩
  · intro d m hd
    rw [month_delta_day]
    omega
  · intro tm tsm stm endTs keep fuel ts w hday hw
    obtain ⟨h1, h2, h3, _, _⟩ := wfoWindowsAux_shape tm tsm stm endTs keep fuel ts w hw
    have hts := wfoWindowsAux_train_start_day tm tsm stm endTs keep fuel ts w hw
    have h1d : w.train_end.day = 28 := by
      rw [h1, month_delta_day]
      rcases hts with hcase | hcase <;> omega
    have h2d : w.test_start.day = 28 := by
      rw [h2]
      exact h1d
    refine ⟨h1d, h2d, ?_⟩
    rw [h3, pyMinDT]
    split
    · left
      rfl
    · right
      rw [month_delta_day, h1d]
      exact Nat.min_self 28

theorem month_delta_day_clamp_witness :
    ((month_delta ⟨2020, 1, 30, 0⟩ 1).day = 28 ∧
     (month_delta ⟨2020, 1, 30, 0⟩ 1).day ≠ (⟨2020, 1, 30, 0⟩ : PyDateTime).day) ∧
    ((⟨⟨2020, 1, 30, 0⟩, ⟨2021, 1, 28, 0⟩, ⟨2021, 1, 28, 0⟩,
        ⟨2021, 3, 30, 0⟩⟩ : WfoWindow).train_end.day = 28 ∧
     (⟨⟨2020, 1, 30, 0⟩, ⟨2021, 1, 28, 0⟩, ⟨2021, 1, 28, 0⟩,
        ⟨2021, 3, 30, 0⟩⟩ : WfoWindow).test_start.day = 28 ∧
     ((⟨⟨2020, 1, 30, 0⟩, ⟨2021, 1, 28, 0⟩, ⟨2021, 1, 28, 0⟩,
         ⟨2021, 3, 30, 0⟩⟩ : WfoWindow).test_end = ⟨2021, 3, 30, 0⟩ ∨
      (⟨⟨2020, 1, 30, 0⟩, ⟨2021, 1, 28, 0⟩, ⟨2021, 1, 28, 0⟩,
         ⟨2021, 3, 30, 0⟩⟩ : WfoWindow).test_end.day = 28)) :=
  ⟨month_delta_day_clamp.2.1 ⟨2020, 1, 30, 0⟩ 1 (by decide),
   month_delta_day_clamp.2.2 12 3 3 ⟨2021, 3, 30, 0⟩ (fun _ => true) 16
     ⟨2020, 1, 30, 0⟩ _ (by decide) (by decide)⟩

end AgentTest
